import Mathlib

/-!
Verification development for the sandboxed script execution engine of the
`tool-scripting` repository (src/src/index.ts, src/src/mcp-adapter.ts,
src/src/types.ts).

The embedding is shallow: the pure functions of the source are translated to
Lean functions over a model of JavaScript values; the stateful execution
engine is translated to explicit event-sequence semantics.  JavaScript
strings are modelled as lists of characters; JavaScript numbers are modelled
as integers (floating point is out of scope of the shallow embedding); the
runtime functions JSON.stringify / JSON.parse are modelled by an executable
encoder / recursive-descent parser over an inductive type of JSON values.
-/

namespace SandboxModel

/-- Model of a JavaScript string: a list of characters. -/
abbrev Txt := List Char

/-- The opening-brace character, written numerically. -/
def lcurly : Char := Char.ofNat 123

/-- The closing-brace character, written numerically. -/
def rcurly : Char := Char.ofNat 125

/-- Boolean prefix test on texts, modelling `String.prototype.startsWith`. -/
def hasPre : Txt → Txt → Bool
  | [], _ => true
  | _ :: _, [] => false
  | c :: p, d :: s => c = d && hasPre p s

/-- Join a list of lines with newline separators, modelling `lines.join('\n')`. -/
def joinLines : List Txt → Txt
  | [] => []
  | [l] => l
  | l :: ls => l ++ '\n' :: joinLines ls

-- Model of a JSON value (the JSON-serializable JavaScript values).
-- Numbers are modelled as integers.
mutual

inductive JVal where
  | jnull : JVal
  | jbool (b : Bool) : JVal
  | jnum (n : Int) : JVal
  | jstr (s : Txt) : JVal
  | jarr (xs : JArr) : JVal
  | jobj (fs : JObj) : JVal

inductive JArr where
  | nil : JArr
  | cons (v : JVal) (t : JArr) : JArr

inductive JObj where
  | nil : JObj
  | cons (k : Txt) (v : JVal) (t : JObj) : JObj

end

open JVal JArr JObj

-- Structural size of a JSON value; used as the parser's fuel bound.
mutual

def sizeV : JVal → Nat
  | jnull => 1
  | jbool _ => 1
  | jnum _ => 1
  | jstr _ => 1
  | jarr xs => 1 + sizeA xs
  | jobj fs => 1 + sizeO fs

def sizeA : JArr → Nat
  | .nil => 0
  | .cons v t => 1 + sizeV v + sizeA t

def sizeO : JObj → Nat
  | .nil => 0
  | .cons _ v t => 1 + sizeV v + sizeO t

end

/-- Decimal digit character for a digit value. -/
def digitChar : Nat → Char
  | 0 => '0'
  | 1 => '1'
  | 2 => '2'
  | 3 => '3'
  | 4 => '4'
  | 5 => '5'
  | 6 => '6'
  | 7 => '7'
  | 8 => '8'
  | 9 => '9'
  | _ => '0'

/-- Decimal digit test on characters. -/
def isDigitCh (c : Char) : Bool :=
  48 ≤ c.toNat && c.toNat ≤ 57

/-- Numeric value of a decimal digit character. -/
def digitVal (c : Char) : Nat :=
  c.toNat - 48

/-- Big-endian decimal digits of a natural number, as characters. -/
def natDigits (n : Nat) : Txt :=
  if n = 0 then ['0'] else ((Nat.digits 10 n).map digitChar).reverse

/-- Decimal rendering of an integer, modelling `JSON.stringify` on numbers. -/
def encInt (n : Int) : Txt :=
  if n < 0 then '-' :: natDigits n.natAbs else natDigits n.toNat

/-- JSON string escaping of one character. -/
def escChar (c : Char) : Txt :=
  if c = '"' then ['\\', '"']
  else if c = '\\' then ['\\', '\\']
  else if c = '\n' then ['\\', 'n']
  else if c = '\t' then ['\\', 't']
  else if c = '\r' then ['\\', 'r']
  else [c]

/-- JSON string escaping of a text. -/
def escTxt : Txt → Txt
  | [] => []
  | c :: r => escChar c ++ escTxt r

-- Executable model of JSON.stringify on JSON values.
mutual

def encVal : JVal → Txt
  | jnull => ['n', 'u', 'l', 'l']
  | jbool true => ['t', 'r', 'u', 'e']
  | jbool false => ['f', 'a', 'l', 's', 'e']
  | jnum n => encInt n
  | jstr s => '"' :: (escTxt s ++ ['"'])
  | jarr xs => '[' :: (encItems xs ++ [']'])
  | jobj fs => lcurly :: (encFields fs ++ [rcurly])

def encItems : JArr → Txt
  | .nil => []
  | .cons v .nil => encVal v
  | .cons v t => encVal v ++ ',' :: encItems t

def encFields : JObj → Txt
  | .nil => []
  | .cons k v .nil => '"' :: (escTxt k ++ '"' :: ':' :: encVal v)
  | .cons k v t => ('"' :: (escTxt k ++ '"' :: ':' :: encVal v)) ++ ',' :: encFields t

end

/-- Consume an expected literal text from the front of the input. -/
def stripLit : Txt → Txt → Option Txt
  | [], s => some s
  | _ :: _, [] => none
  | c :: l, d :: s => if c = d then stripLit l s else none

/-- Split a maximal run of decimal digit characters off the front. -/
def takeDigits : Txt → Txt × Txt
  | [] => ([], [])
  | c :: r =>
    if isDigitCh c then
      let p := takeDigits r
      (c :: p.1, p.2)
    else ([], c :: r)

/-- Big-endian digit characters to a natural number. -/
def digitsToNat (cs : Txt) : Nat :=
  cs.foldl (fun a c => a * 10 + digitVal c) 0

/-- Parse a JSON integer (optional minus sign, digit run). -/
def parseNum : Txt → Option (Int × Txt)
  | [] => none
  | c :: r =>
    if c = '-' then
      let p := takeDigits r
      if p.1 = [] then none else some (-(digitsToNat p.1 : Int), p.2)
    else
      let p := takeDigits (c :: r)
      if p.1 = [] then none else some ((digitsToNat p.1 : Int), p.2)

/-- Decode one JSON string escape character. -/
def unescChar (e : Char) : Option Char :=
  if e = '"' then some '"'
  else if e = '\\' then some '\\'
  else if e = 'n' then some '\n'
  else if e = 't' then some '\t'
  else if e = 'r' then some '\r'
  else none

/-- Parse a JSON string body after the opening quote, up to the closing
quote; returns the decoded text and the remaining input. -/
def parseStrBody : Txt → Option (Txt × Txt)
  | [] => none
  | c :: r =>
    if c = '"' then some ([], r)
    else if c = '\\' then
      match r with
      | [] => none
      | e :: r2 =>
        match unescChar e with
        | none => none
        | some c2 => (parseStrBody r2).map (fun p => (c2 :: p.1, p.2))
    else (parseStrBody r).map (fun p => (c :: p.1, p.2))
termination_by s => s.length
decreasing_by all_goals simp_wf <;> omega

-- Fuel-bounded recursive-descent parser modelling JSON.parse.
mutual

def parseVal : Nat → Txt → Option (JVal × Txt)
  | 0, _ => none
  | _ + 1, [] => none
  | fuel + 1, c :: r =>
    if c = 'n' then
      match stripLit ['u', 'l', 'l'] r with
      | some r2 => some (jnull, r2)
      | none => none
    else if c = 't' then
      match stripLit ['r', 'u', 'e'] r with
      | some r2 => some (jbool true, r2)
      | none => none
    else if c = 'f' then
      match stripLit ['a', 'l', 's', 'e'] r with
      | some r2 => some (jbool false, r2)
      | none => none
    else if c = '"' then
      (parseStrBody r).map (fun p => (jstr p.1, p.2))
    else if c = '[' then
      match r with
      | [] => none
      | c2 :: r2 =>
        if c2 = ']' then some (jarr .nil, r2)
        else (parseItems fuel (c2 :: r2)).map (fun p => (jarr p.1, p.2))
    else if c = lcurly then
      match r with
      | [] => none
      | c2 :: r2 =>
        if c2 = rcurly then some (jobj .nil, r2)
        else (parseFields fuel (c2 :: r2)).map (fun p => (jobj p.1, p.2))
    else if c = '-' then
      (parseNum (c :: r)).map (fun p => (jnum p.1, p.2))
    else if isDigitCh c then
      (parseNum (c :: r)).map (fun p => (jnum p.1, p.2))
    else none

def parseItems : Nat → Txt → Option (JArr × Txt)
  | 0, _ => none
  | fuel + 1, s =>
    match parseVal fuel s with
    | none => none
    | some (v, r) =>
      match r with
      | [] => none
      | c :: r2 =>
        if c = ',' then
          (parseItems fuel r2).map (fun p => (JArr.cons v p.1, p.2))
        else if c = ']' then some (JArr.cons v .nil, r2)
        else none

def parseFields : Nat → Txt → Option (JObj × Txt)
  | 0, _ => none
  | fuel + 1, s =>
    match s with
    | [] => none
    | c :: r =>
      if c = '"' then
        match parseStrBody r with
        | none => none
        | some (k, r1) =>
          match r1 with
          | [] => none
          | c1 :: r2 =>
            if c1 = ':' then
              match parseVal fuel r2 with
              | none => none
              | some (v, r3) =>
                match r3 with
                | [] => none
                | c2 :: r4 =>
                  if c2 = ',' then
                    (parseFields fuel r4).map (fun p => (JObj.cons k v p.1, p.2))
                  else if c2 = rcurly then some (JObj.cons k v .nil, r4)
                  else none
            else none
      else none

end

/-- Executable model of `JSON.parse`: parse a complete JSON text, requiring
full consumption of the input; `none` models a thrown `SyntaxError`. -/
def parseJson (s : Txt) : Option JVal :=
  match parseVal (s.length + 1) s with
  | some (v, []) => some v
  | _ => none

/-- Input does not begin with a decimal digit (delimits a parsed number). -/
def noDigitHead : Txt → Bool
  | [] => true
  | c :: _ => !(isDigitCh c)

theorem digitVal_digitChar (d : Nat) (h : d < 10) : digitVal (digitChar d) = d := by
  interval_cases d <;> decide

theorem isDigitCh_digitChar (d : Nat) (h : d < 10) : isDigitCh (digitChar d) = true := by
  interval_cases d <;> decide

theorem natDigits_ne_nil (n : Nat) : natDigits n ≠ [] := by
  unfold natDigits
  split
  · simp
  · rename_i h
    intro hc
    have hd : Nat.digits 10 n ≠ [] := Nat.digits_ne_nil_iff_ne_zero.mpr h
    simp only [List.reverse_eq_nil_iff, List.map_eq_nil_iff] at hc
    exact hd hc

theorem natDigits_all_digits (n : Nat) : ∀ c ∈ natDigits n, isDigitCh c = true := by
  intro c hc
  unfold natDigits at hc
  split at hc
  · simp at hc
    subst hc
    decide
  · simp only [List.mem_reverse, List.mem_map] at hc
    obtain ⟨d, hd, rfl⟩ := hc
    exact isDigitCh_digitChar d (Nat.digits_lt_base (by norm_num) hd)

theorem takeDigits_append (ds rest : Txt) (hds : ∀ c ∈ ds, isDigitCh c = true)
    (hrest : noDigitHead rest = true) : takeDigits (ds ++ rest) = (ds, rest) := by
  induction ds with
  | nil =>
    cases rest with
    | nil => rfl
    | cons c r =>
      simp only [noDigitHead, Bool.not_eq_true'] at hrest
      simp [takeDigits, hrest]
  | cons c ds ih =>
    have hc : isDigitCh c = true := hds c (by simp)
    simp [takeDigits, hc, ih (fun x hx => hds x (by simp [hx]))]

theorem foldl_digits_rev (L : List Nat) (hL : ∀ d ∈ L, d < 10) (a : Nat) :
    List.foldl (fun acc c => acc * 10 + digitVal c) a ((L.map digitChar).reverse) =
      a * 10 ^ L.length + Nat.ofDigits 10 L := by
  induction L generalizing a with
  | nil => simp [Nat.ofDigits_nil]
  | cons d L ih =>
    have hd : d < 10 := hL d (by simp)
    simp only [List.map_cons, List.reverse_cons, List.foldl_append, List.foldl_cons,
      List.foldl_nil, Nat.ofDigits_cons, List.length_cons]
    rw [ih (fun x hx => hL x (by simp [hx]))]
    rw [digitVal_digitChar d hd]
    ring

theorem digitsToNat_natDigits (n : Nat) : digitsToNat (natDigits n) = n := by
  unfold natDigits digitsToNat
  split
  · rename_i h
    subst h
    decide
  · rename_i h
    rw [foldl_digits_rev (Nat.digits 10 n)
      (fun d hd => Nat.digits_lt_base (by norm_num) hd) 0]
    simp [Nat.ofDigits_digits]

theorem natDigits_head (n : Nat) :
    ∃ c t, natDigits n = c :: t ∧ isDigitCh c = true := by
  cases h : natDigits n with
  | nil => exact absurd h (natDigits_ne_nil n)
  | cons c t =>
    exact ⟨c, t, rfl, natDigits_all_digits n c (by rw [h]; simp)⟩

theorem parseNum_enc (n : Int) (rest : Txt) (h : noDigitHead rest = true) :
    parseNum (encInt n ++ rest) = some (n, rest) := by
  unfold encInt
  split
  · rename_i hneg
    have htd : takeDigits (natDigits n.natAbs ++ rest) = (natDigits n.natAbs, rest) :=
      takeDigits_append _ _ (natDigits_all_digits _) h
    have hv : -(((n.natAbs : Nat) : Int)) = n := by omega
    simp [parseNum, htd, natDigits_ne_nil n.natAbs, digitsToNat_natDigits, hv]
    rw [abs_of_neg hneg, neg_neg]
  · rename_i hnonneg
    obtain ⟨c, t, hct, hc⟩ := natDigits_head n.toNat
    have htd : takeDigits (natDigits n.toNat ++ rest) = (natDigits n.toNat, rest) :=
      takeDigits_append _ _ (natDigits_all_digits _) h
    rw [hct] at htd ⊢
    have hcne : c ≠ '-' := fun heq => absurd (heq ▸ hc) (by decide)
    have hdv : digitsToNat (c :: t) = n.toNat := by
      rw [← hct]
      exact digitsToNat_natDigits n.toNat
    have hv : ((n.toNat : Nat) : Int) = n := by omega
    simp only [List.cons_append] at htd
    have h1 : (takeDigits (c :: (t ++ rest))).1 = c :: t := by rw [htd]
    have h2 : (takeDigits (c :: (t ++ rest))).2 = rest := by rw [htd]
    simp [parseNum, hcne, h1, h2, hdv, hv]

theorem parseStrBody_cons (c : Char) (r : Txt) :
    parseStrBody (c :: r) =
      if c = '"' then some ([], r)
      else if c = '\\' then
        match r with
        | [] => none
        | e :: r2 =>
          match unescChar e with
          | none => none
          | some c2 => (parseStrBody r2).map (fun p => (c2 :: p.1, p.2))
      else (parseStrBody r).map (fun p => (c :: p.1, p.2)) := by
  rw [parseStrBody.eq_def]
  rfl

theorem parseStrBody_esc (s rest : Txt) :
    parseStrBody (escTxt s ++ '"' :: rest) = some (s, rest) := by
  induction s with
  | nil => simp [escTxt, parseStrBody_cons]
  | cons c s ih =>
    by_cases h1 : c = '"'
    · subst h1
      simp [escTxt, escChar, parseStrBody_cons, unescChar, ih]
    · by_cases h2 : c = '\\'
      · subst h2
        simp [escTxt, escChar, parseStrBody_cons, unescChar, ih]
      · by_cases h3 : c = '\n'
        · subst h3
          simp [escTxt, escChar, parseStrBody_cons, unescChar, ih]
        · by_cases h4 : c = '\t'
          · subst h4
            simp [escTxt, escChar, parseStrBody_cons, unescChar, ih]
          · by_cases h5 : c = '\r'
            · subst h5
              simp [escTxt, escChar, parseStrBody_cons, unescChar, ih]
            · simp [escTxt, escChar, parseStrBody_cons, h1, h2, h3, h4, h5, ih]

theorem sizeV_pos (v : JVal) : 1 ≤ sizeV v := by
  cases v <;> simp [sizeV]

theorem digit_ne_chars (c : Char) (hc : isDigitCh c = true) :
    c ≠ 'n' ∧ c ≠ 't' ∧ c ≠ 'f' ∧ c ≠ '"' ∧ c ≠ '[' ∧ c ≠ lcurly ∧ c ≠ '-' ∧ c ≠ ']' := by
  refine ⟨?_, ?_, ?_, ?_, ?_, ?_, ?_, ?_⟩ <;>
    exact fun heq => absurd (heq ▸ hc) (by decide)

theorem encVal_head (v : JVal) : ∃ c t, encVal v = c :: t ∧ c ≠ ']' := by
  cases v with
  | jnull => exact ⟨'n', _, rfl, by decide⟩
  | jbool b =>
    cases b
    · exact ⟨'f', _, rfl, by decide⟩
    · exact ⟨'t', _, rfl, by decide⟩
  | jnum n =>
    show ∃ c t, encInt n = c :: t ∧ c ≠ ']'
    unfold encInt
    split
    · exact ⟨'-', _, rfl, by decide⟩
    · obtain ⟨c, t, hct, hc⟩ := natDigits_head n.toNat
      exact ⟨c, t, hct, (digit_ne_chars c hc).2.2.2.2.2.2.2⟩
  | jstr s => exact ⟨'"', _, rfl, by decide⟩
  | jarr xs => exact ⟨'[', _, rfl, by decide⟩
  | jobj fs => exact ⟨lcurly, _, rfl, by decide⟩

theorem encItems_cons_head (x : JVal) (xs : JArr) :
    ∃ c t, encItems (JArr.cons x xs) = c :: t ∧ c ≠ ']' := by
  obtain ⟨c, t, hct, hc⟩ := encVal_head x
  cases xs with
  | nil => exact ⟨c, t, by simp [encItems, hct], hc⟩
  | cons y ys => exact ⟨c, t ++ ',' :: encItems (JArr.cons y ys), by simp [encItems, hct], hc⟩

theorem encFields_cons_head (k : Txt) (x : JVal) (fs : JObj) :
    ∃ t, encFields (JObj.cons k x fs) = '"' :: t := by
  cases fs with
  | nil => exact ⟨_, rfl⟩
  | cons k2 x2 fs2 =>
    refine ⟨(escTxt k ++ '"' :: ':' :: encVal x) ++ ',' :: encFields (JObj.cons k2 x2 fs2), ?_⟩
    simp [encFields]

theorem noDigitHead_of (c : Char) (r : Txt) (h : isDigitCh c = false) :
    noDigitHead (c :: r) = true := by
  simp [noDigitHead, h]

theorem curly_ne_facts :
    lcurly ≠ 'n' ∧ lcurly ≠ 't' ∧ lcurly ≠ 'f' ∧ lcurly ≠ '"' ∧ lcurly ≠ '[' ∧
      rcurly ≠ ',' ∧ ('"' : Char) ≠ rcurly ∧ (']' : Char) ≠ ',' := by
  decide

-- Round trip: the parser consumes exactly the encoder's output and leaves
-- any non-digit-leading suffix intact.  Proved by induction on the fuel,
-- since every recursive parser call decrements the fuel.
theorem parse_enc_all (fuel : Nat) :
    (∀ (v : JVal) (rest : Txt), sizeV v ≤ fuel → noDigitHead rest = true →
      parseVal fuel (encVal v ++ rest) = some (v, rest)) ∧
    (∀ (x : JVal) (xs : JArr) (rest : Txt), sizeA (JArr.cons x xs) ≤ fuel →
      parseItems fuel (encItems (JArr.cons x xs) ++ ']' :: rest) =
        some (JArr.cons x xs, rest)) ∧
    (∀ (k : Txt) (x : JVal) (fs : JObj) (rest : Txt), sizeO (JObj.cons k x fs) ≤ fuel →
      parseFields fuel (encFields (JObj.cons k x fs) ++ rcurly :: rest) =
        some (JObj.cons k x fs, rest)) := by
  induction fuel with
  | zero =>
    refine ⟨?_, ?_, ?_⟩
    · intro v rest hf _
      exact absurd hf (by have := sizeV_pos v; omega)
    · intro x xs rest hf
      exact absurd hf (by simp only [sizeA]; omega)
    · intro k x fs rest hf
      exact absurd hf (by simp only [sizeO]; omega)
  | succ f ih =>
    obtain ⟨ihV, ihI, ihF⟩ := ih
    refine ⟨?_, ?_, ?_⟩
    · intro v rest hf hrest
      cases v with
      | jnull => simp [encVal, parseVal, stripLit]
      | jbool b =>
        cases b
        · simp [encVal, parseVal, stripLit]
        · simp [encVal, parseVal, stripLit]
      | jnum n =>
        have hp := parseNum_enc n rest hrest
        by_cases hneg : n < 0
        · have he : encInt n = '-' :: natDigits n.natAbs := by
            simp [encInt, hneg]
          rw [he] at hp
          simp only [encVal, he, List.cons_append] at hp ⊢
          simp [parseVal, hp, show ('-' : Char) ≠ lcurly by decide]
        · obtain ⟨c, t, hct, hc⟩ := natDigits_head n.toNat
          have he : encInt n = c :: t := by
            simp [encInt, hneg, hct]
          rw [he] at hp
          obtain ⟨hn1, hn2, hn3, hn4, hn5, hn6, hn7, _⟩ := digit_ne_chars c hc
          simp only [encVal, he, List.cons_append] at hp ⊢
          simp [parseVal, hn1, hn2, hn3, hn4, hn5, hn6, hn7, hc, hp]
      | jstr s =>
        have hb := parseStrBody_esc s rest
        simp [encVal, parseVal, List.append_assoc, hb]
      | jarr xs =>
        cases xs with
        | nil => simp [encVal, encItems, parseVal]
        | cons x xs =>
          obtain ⟨c, t, hct, hc⟩ := encItems_cons_head x xs
          have hi := ihI x xs rest (by simp only [sizeV] at hf; omega)
          rw [hct] at hi
          have he : encVal (jarr (JArr.cons x xs)) ++ rest =
              '[' :: c :: (t ++ ']' :: rest) := by
            simp [encVal, hct]
          rw [he]
          simp only [List.cons_append] at hi
          simp [parseVal, hc, hi]
      | jobj fs =>
        obtain ⟨hl1, hl2, hl3, hl4, hl5, _, hq, _⟩ := curly_ne_facts
        cases fs with
        | nil => simp [encVal, encFields, parseVal, hl1, hl2, hl3, hl4, hl5]
        | cons k x fs =>
          obtain ⟨t, hct⟩ := encFields_cons_head k x fs
          have hi := ihF k x fs rest (by simp only [sizeV] at hf; omega)
          rw [hct] at hi
          have he : encVal (jobj (JObj.cons k x fs)) ++ rest =
              lcurly :: '"' :: (t ++ rcurly :: rest) := by
            simp [encVal, hct]
          rw [he]
          simp only [List.cons_append] at hi
          simp [parseVal, hl1, hl2, hl3, hl4, hl5, hq, hi]
    · intro x xs rest hf
      cases xs with
      | nil =>
        have hv := ihV x (']' :: rest)
          (by simp only [sizeA] at hf; omega) (noDigitHead_of _ _ (by decide))
        simp [encItems, parseItems, hv]
      | cons y ys =>
        have hv := ihV x (',' :: (encItems (JArr.cons y ys) ++ ']' :: rest))
          (by simp only [sizeA] at hf; omega)
          (noDigitHead_of _ _ (by decide))
        have hi := ihI y ys rest (by simp only [sizeA] at hf ⊢; omega)
        have he : encItems (JArr.cons x (JArr.cons y ys)) ++ ']' :: rest =
            encVal x ++ (',' :: (encItems (JArr.cons y ys) ++ ']' :: rest)) := by
          simp [encItems]
        rw [he]
        simp [parseItems, hv, hi]
    · intro k x fs rest hf
      obtain ⟨_, _, _, _, _, hr1, _, _⟩ := curly_ne_facts
      cases fs with
      | nil =>
        have hv := ihV x (rcurly :: rest)
          (by simp only [sizeO] at hf; omega) (noDigitHead_of _ _ (by decide))
        have hk := parseStrBody_esc k (':' :: (encVal x ++ rcurly :: rest))
        have he : encFields (JObj.cons k x .nil) ++ rcurly :: rest =
            '"' :: (escTxt k ++ '"' :: ':' :: (encVal x ++ rcurly :: rest)) := by
          simp [encFields]
        rw [he]
        simp [parseFields, hk, hv, hr1]
      | cons k2 x2 fs2 =>
        have hv := ihV x (',' :: (encFields (JObj.cons k2 x2 fs2) ++ rcurly :: rest))
          (by simp only [sizeO] at hf; omega)
          (noDigitHead_of _ _ (by decide))
        have hi := ihF k2 x2 fs2 rest (by simp only [sizeO] at hf ⊢; omega)
        have hk := parseStrBody_esc k
          (':' :: (encVal x ++ ',' :: (encFields (JObj.cons k2 x2 fs2) ++ rcurly :: rest)))
        have he : encFields (JObj.cons k x (JObj.cons k2 x2 fs2)) ++ rcurly :: rest =
            '"' :: (escTxt k ++ '"' :: ':' ::
              (encVal x ++ ',' :: (encFields (JObj.cons k2 x2 fs2) ++ rcurly :: rest))) := by
          simp [encFields]
        rw [he]
        simp [parseFields, hk, hv, hi, hr1]

theorem parseVal_enc (v : JVal) (fuel : Nat) (rest : Txt) (hf : sizeV v ≤ fuel)
    (hrest : noDigitHead rest = true) :
    parseVal fuel (encVal v ++ rest) = some (v, rest) :=
  (parse_enc_all fuel).1 v rest hf hrest


theorem encInt_ne_nil (n : Int) : encInt n ≠ [] := by
  unfold encInt
  split
  · simp
  · exact natDigits_ne_nil n.toNat

-- The structural size is bounded by the encoding length, so the fuel
-- supplied by parseJson suffices.
mutual

theorem sizeV_le_encLen (v : JVal) : sizeV v ≤ (encVal v).length := by
  cases v with
  | jnull => simp [sizeV, encVal]
  | jbool b => cases b <;> simp [sizeV, encVal]
  | jnum n =>
    have h := encInt_ne_nil n
    have : 1 ≤ (encInt n).length := by
      cases he : encInt n with
      | nil => exact absurd he h
      | cons c t => simp
    simpa [sizeV, encVal] using this
  | jstr s => simp [sizeV, encVal]
  | jarr xs =>
    cases xs with
    | nil => simp [sizeV, sizeA, encVal, encItems]
    | cons x t =>
      have h := sizeA_le_encLen x t
      simp only [sizeV, encVal, List.length_cons, List.length_append, List.length_nil] at h ⊢
      omega
  | jobj fs =>
    cases fs with
    | nil => simp [sizeV, sizeO, encVal, encFields]
    | cons k x t =>
      have h := sizeO_le_encLen k x t
      simp only [sizeV, encVal, List.length_cons, List.length_append, List.length_nil] at h ⊢
      omega
termination_by sizeOf v
decreasing_by all_goals simp_wf <;> omega

theorem sizeA_le_encLen (x : JVal) (xs : JArr) :
    sizeA (JArr.cons x xs) ≤ 1 + (encItems (JArr.cons x xs)).length := by
  cases xs with
  | nil =>
    have h := sizeV_le_encLen x
    simp only [sizeA, encItems, List.length_nil]
    omega
  | cons y ys =>
    have h1 := sizeV_le_encLen x
    have h2 := sizeA_le_encLen y ys
    simp only [sizeA, encItems, List.length_append, List.length_cons] at h2 ⊢
    omega
termination_by 1 + sizeOf x + sizeOf xs
decreasing_by all_goals simp_wf <;> omega

theorem sizeO_le_encLen (k : Txt) (x : JVal) (fs : JObj) :
    sizeO (JObj.cons k x fs) ≤ 1 + (encFields (JObj.cons k x fs)).length := by
  cases fs with
  | nil =>
    have h := sizeV_le_encLen x
    simp only [sizeO, encFields, List.length_cons, List.length_append, List.length_nil]
    omega
  | cons k2 x2 fs2 =>
    have h1 := sizeV_le_encLen x
    have h2 := sizeO_le_encLen k2 x2 fs2
    simp only [sizeO, encFields, List.length_append, List.length_cons] at h2 ⊢
    omega
termination_by 1 + sizeOf x + sizeOf fs
decreasing_by all_goals (simp_wf; omega)

end

theorem noDigitHead_nil : noDigitHead [] = true := rfl

/-- Full round trip of the JSON codec model: parsing an encoded value
returns the value. -/
theorem parseJson_encVal (v : JVal) : parseJson (encVal v) = some v := by
  have h := parseVal_enc v ((encVal v).length + 1) []
    (by have := sizeV_le_encLen v; omega) noDigitHead_nil
  rw [List.append_nil] at h
  unfold parseJson
  rw [h]

/-- Model of a JavaScript value as observed at the sandbox boundary: either
`undefined` or a JSON value (null, boolean, number, string, array, object). -/
inductive JSVal where
  | undef : JSVal
  | val (v : JVal) : JSVal

/-- JavaScript truthiness of a JSON value. -/
def jsTruthy : JVal → Bool
  | jnull => false
  | jbool b => b
  | jnum n => decide (n ≠ 0)
  | jstr s => decide (s ≠ [])
  | jarr _ => true
  | jobj _ => true

/-- JavaScript truthiness of a boundary value (`undefined` is falsy). -/
def jsTruthyJS : JSVal → Bool
  | .undef => false
  | .val v => jsTruthy v

/-- Template interpolation of a `JSON.stringify` result: stringify of
`undefined` is the value `undefined`, which a template literal renders as
the text `undefined`; stringify of a JSON value is its encoding. -/
def stringifyTemplate : JSVal → Txt
  | .undef => "undefined".toList
  | .val v => encVal v

/-- The sentinel prefix used to signal script abort across the isolate
boundary (src/src/index.ts, `ABORT_SENTINEL`). -/
def ABORT_SENTINEL : Txt := "__CIRCUIT_BREAKER_ABORT__".toList

/-- Model of `createAbortError` (src/src/index.ts): the `message` of the
created `Error`, namely the sentinel followed by the JSON encoding of the
result. -/
def createAbortError (result : JSVal) : Txt :=
  ABORT_SENTINEL ++ stringifyTemplate result

/-- Model of `parseAbortError` (src/src/index.ts): if the message starts
with the sentinel, JSON-parse the remainder and return the parsed value,
otherwise return null.  The source returns the single JavaScript value
`null` both for a missing prefix and for a caught parse failure — and a
successfully parsed JSON `null` is that very same value, so the caller's
`abortResult !== null` check cannot tell a null abort payload from
not-an-abort.  `none` models that null return; a decoded JSON null
therefore collapses to `none`. -/
def parseAbortError (message : Txt) : Option JVal :=
  if hasPre ABORT_SENTINEL message then
    match parseJson (message.drop ABORT_SENTINEL.length) with
    | some jnull => none
    | some v => some v
    | none => none
  else none

theorem hasPre_append (p s : Txt) : hasPre p (p ++ s) = true := by
  induction p with
  | nil => rfl
  | cons c p ih => simp [hasPre, ih]

/-- The abort envelope round trip: decoding the encoded message of any
JSON value other than null returns that value.  (For null the decoded
value is the not-an-abort marker itself.) -/
theorem abort_roundtrip (v : JVal) (hv : v ≠ jnull) :
    parseAbortError (createAbortError (JSVal.val v)) = some v := by
  unfold parseAbortError createAbortError stringifyTemplate
  rw [if_pos (hasPre_append _ _), List.drop_left, parseJson_encVal v]
  cases v with
  | jnull => exact absurd rfl hv
  | jbool b => rfl
  | jnum n => rfl
  | jstr s => rfl
  | jarr xs => rfl
  | jobj fs => rfl

theorem parseAbort_no_sentinel (m : Txt) (h : hasPre ABORT_SENTINEL m = false) :
    parseAbortError m = none := by
  simp [parseAbortError, h]

/-- Property access `o[k]` on a JavaScript object model: the first binding
of the key, `none` when the key is absent or the value is not an object
(models reading `undefined`). -/
def jgetObj : JObj → Txt → Option JVal
  | .nil, _ => none
  | .cons k2 v t, k => if k2 = k then some v else jgetObj t k

/-- Property access on a JSON value. -/
def jget : JVal → Txt → Option JVal
  | jobj fs, k => jgetObj fs k
  | _, _ => none

-- JavaScript String() coercion of a JSON value (arrays join their
-- elements with commas, null elements render empty, objects render as
-- the object placeholder text).
mutual

def jsToString : JVal → Txt
  | jnull => "null".toList
  | jbool true => "true".toList
  | jbool false => "false".toList
  | jnum n => encInt n
  | jstr s => s
  | jarr xs => jsArrJoin xs
  | jobj _ => "[object Object]".toList

def jsArrJoin : JArr → Txt
  | .nil => []
  | .cons v .nil => jsElemString v
  | .cons v t => jsElemString v ++ ',' :: jsArrJoin t

def jsElemString : JVal → Txt
  | jnull => []
  | v => jsToString v

end

/-- An MCP tool result, mirroring the `MCPToolResult` interface of
src/src/mcp-adapter.ts: an error flag, an optional array of content
entries (each entry a JavaScript object value), and optional structured
content. `none` models an absent (or null/undefined) field. -/
structure MCPToolResult where
  isError : Bool
  content : Option JArr
  structuredContent : Option JVal

/-- The fallback diagnostic text of `MCPToolError`. -/
def mcpDefaultMsg : Txt := "MCP tool execution failed".toList

/-- The message of the `MCPToolError` constructed from a result:
`result.content?.[0]?.text ?? 'MCP tool execution failed'` (a nullish
text falls back to the default; a non-string text is string-coerced by
the `Error` constructor). -/
def mcpErrorMessage (r : MCPToolResult) : Txt :=
  match r.content with
  | some (.cons e _) =>
    match jget e "text".toList with
    | some jnull => mcpDefaultMsg
    | some tv => jsToString tv
    | none => mcpDefaultMsg
  | _ => mcpDefaultMsg

/-- Outcome of envelope adaptation: either a thrown `MCPToolError`
(carrying its message) or a returned JavaScript value. -/
inductive AdaptOut where
  | thrown (message : Txt)
  | value (v : JSVal)

/-- Adaptation of a single content entry (`adaptMCPToolResult`, single
entry case): if `type` is `'text'` and `text` is truthy, JSON-parse the
text (string-coercing a non-string text first), returning the raw text
value when parsing fails; otherwise return the entry itself. -/
def adaptSingle (e : JVal) : AdaptOut :=
  match jget e "type".toList with
  | some (jstr ty) =>
    if ty = "text".toList then
      match jget e "text".toList with
      | some tv =>
        if jsTruthy tv then
          match parseJson (jsToString tv) with
          | some v => .value (.val v)
          | none => .value (.val tv)
        else .value (.val e)
      | none => .value (.val e)
    else .value (.val e)
  | _ => .value (.val e)

/-- The content-based branch of `adaptMCPToolResult`: no content yields
`undefined`, more than one entry yields the whole content array, one
entry is adapted by `adaptSingle`. -/
def adaptContent : Option JArr → AdaptOut
  | none => .value .undef
  | some .nil => .value .undef
  | some (.cons e .nil) => adaptSingle e
  | some xs => .value (.val (jarr xs))

/-- Model of `adaptMCPToolResult` (src/src/mcp-adapter.ts): an error
envelope throws `MCPToolError`; truthy structured content is returned;
otherwise the content branch decides.  The output schema parameter of the
source is unused by the function's logic and omitted. -/
def adaptMCPToolResult (r : MCPToolResult) : AdaptOut :=
  if r.isError then .thrown (mcpErrorMessage r)
  else
    match r.structuredContent with
    | some sc => if jsTruthy sc then .value (.val sc) else adaptContent r.content
    | none => adaptContent r.content

/-- A tool's resolved return value: either a plain value or a recognized
MCP envelope.  The source's `isMCPToolResult` is a duck-type shape test;
in the model, envelope-shaped values are exactly the `mcpRet` alternative. -/
inductive ToolRet where
  | plainRet (v : JSVal)
  | mcpRet (r : MCPToolResult)

/-- Model of the `isMCPToolResult` recognizer over the two alternatives. -/
def isMCPToolResult : ToolRet → Bool
  | .plainRet _ => false
  | .mcpRet _ => true

/-- Outcome of invoking a tool's raw execute function: a resolved value or
a rejection carrying a message. -/
inductive ExecOut where
  | ok (v : ToolRet)
  | threw (msg : Txt)

/-- A tool definition as consumed by binding extraction: the execute
function may be absent (`execute?:` in src/src/types.ts). -/
structure ToolDef where
  execute : Option (List JSVal → ExecOut)

/-- Character test of the sanitizer's regular expression `[^a-zA-Z0-9_$]`. -/
def isIdentChar (c : Char) : Bool :=
  ('a' ≤ c && c ≤ 'z') || ('A' ≤ c && c ≤ 'Z') || ('0' ≤ c && c ≤ '9') || c = '_' || c = '$'

/-- Model of `sanitizeToolName` (src/src/index.ts): every character that is
not alphanumeric, underscore or dollar is replaced by an underscore. -/
def sanitizeToolName (name : Txt) : Txt :=
  name.map (fun c => if isIdentChar c then c else '_')

/-- A result signal returned by the host inspection callback
(`ResultSignal` in src/src/types.ts). -/
inductive Signal where
  | contSig (result : JSVal)
  | abortSig (result : JSVal)

/-- The host inspection callback (`OnToolResultCallback`), declared in
src/src/types.ts with two parameters: the tool name and the result.
Modelled as a pure function. -/
abbrev Callback := Txt → JSVal → Signal

/-- One entry of the execution log pushed by the binding bridge in
`CodeExecutionSandbox.execute`. -/
structure TraceEntry where
  fn : Txt
  args : List JSVal
  result : JSVal

/-- Observable events of one invocation, in order of occurrence:
invocation of a tool's underlying execute function, invocation of the
host inspection callback (recording the value a third parameter would
read, which is `undefined` because the call site passes two arguments),
and a push onto the execution log. -/
inductive REvent where
  | execCalled (name : Txt) (args : List JSVal)
  | cbCalled (name : Txt) (value : JSVal) (thirdArg : JSVal) (sig : Signal)
  | tracePushed (e : TraceEntry)

/-- Argument normalization of `wrappedExecute`: a call with no arguments
delivers one empty object, any other argument list passes unchanged. -/
def normalizeArgs : List JSVal → List JSVal
  | [] => [JSVal.val (jobj JObj.nil)]
  | a :: t => a :: t

/-- Message extraction `error?.message || String(error)`: an empty
message falls back to the error's string form. -/
def errMsgOf (m : Txt) : Txt :=
  if m = [] then "Error".toList else m

/-- Result of one bridged call as observed by the script: a returned
value or a thrown error (carried across the isolation boundary as its
message). -/
inductive CallOut where
  | ret (v : JSVal)
  | thrown (msg : Txt)

/-- The adaptation stage of `wrappedExecute`: a recognized MCP envelope is
adapted (`if (isMCPToolResult(result)) result = adaptMCPToolResult(...)`),
a plain value passes through. -/
def adaptStage : ToolRet → AdaptOut
  | .plainRet v => .value v
  | .mcpRet r => adaptMCPToolResult r

/-- Model of the `wrappedExecute` closure built by `extractToolBindings`
for one tool: normalize the arguments, invoke the execute function, adapt
a recognized MCP envelope, then consult the host inspection callback if
configured.  The callback is invoked with the original (unsanitized) tool
name and the adapted value; the call site passes exactly these two
arguments, so a third parameter reads `undefined`.  An abort signal
throws the abort envelope; a continue signal returns the signal's result. -/
def wrappedExecute (cb : Option Callback) (origName : Txt)
    (exec : List JSVal → ExecOut) (args : List JSVal) : List REvent × CallOut :=
  let normArgs := normalizeArgs args
  match exec normArgs with
  | .threw m => ([.execCalled origName normArgs], .thrown m)
  | .ok raw =>
    match adaptStage raw with
    | .thrown m => ([.execCalled origName normArgs], .thrown m)
    | .value v =>
      match cb with
      | none => ([.execCalled origName normArgs], .ret v)
      | some f =>
        match f origName v with
        | .contSig r =>
          ([.execCalled origName normArgs, .cbCalled origName v .undef (.contSig r)], .ret r)
        | .abortSig r =>
          ([.execCalled origName normArgs, .cbCalled origName v .undef (.abortSig r)],
            .thrown (createAbortError r))

/-- Model of the binding bridge installed by `CodeExecutionSandbox.execute`
for one binding: await the wrapped execute, then push a trace entry keyed
by the binding's name (the sanitized name, under which the binding was
stored), recording the returned value on success and `Error: <message>`
on failure, re-throwing the error unchanged. -/
def bridgedCall (sname : Txt) (cb : Option Callback) (origName : Txt)
    (exec : List JSVal → ExecOut) (args : List JSVal) : List REvent × CallOut :=
  match wrappedExecute cb origName exec args with
  | (evs, .ret v) => (evs ++ [.tracePushed ⟨sname, args, v⟩], .ret v)
  | (evs, .thrown m) =>
    (evs ++ [.tracePushed ⟨sname, args, .val (jstr ("Error: ".toList ++ errMsgOf m))⟩],
      .thrown m)

/-- One entry of the bindings record produced by `extractToolBindings`:
the record key (sanitized name), the original name captured by the
closure, and the present execute function. -/
structure Binding where
  sname : Txt
  origName : Txt
  exec : List JSVal → ExecOut

/-- The error message thrown for a tool without an execute function. -/
def missingMsg (name : Txt) : Txt :=
  "Tool \"".toList ++ name ++ "\" must have an execute function for code mode".toList

/-- Model of `extractToolBindings` (src/src/index.ts): walk the tool table
in order; the first tool without an execute function throws; otherwise
each tool contributes a binding stored under its sanitized name. -/
def extractToolBindings : List (Txt × ToolDef) → Except Txt (List Binding)
  | [] => .ok []
  | (name, tool) :: rest =>
    match tool.execute with
    | none => .error (missingMsg name)
    | some f =>
      match extractToolBindings rest with
      | .error e => .error e
      | .ok bs => .ok (⟨sanitizeToolName name, name, f⟩ :: bs)

/-- Lookup in the bindings record: assignment order makes the last binding
with a given key win (`bindings[sanitizedName] = wrappedExecute`). -/
def lookupBinding : List Binding → Txt → Option Binding
  | [], _ => none
  | b :: rest, key =>
    match lookupBinding rest key with
    | some b2 => some b2
    | none => if b.sname = key then some b else none

-- A sandboxed script, modelled as statements that either await one
-- capability call or run a try/catch block, followed by a returned value.
mutual

inductive Stmt where
  | callTool (name : Txt) (args : List JSVal) : Stmt
  | tryCatch (body : StmtL) (handler : StmtL) : Stmt

inductive StmtL where
  | nil : StmtL
  | cons (s : Stmt) (t : StmtL) : StmtL

end

/-- A script: its statements and the value its body returns on normal
completion. -/
structure Script where
  body : StmtL
  ret : JSVal

-- Script execution semantics: each awaited capability call runs through
-- the binding bridge; a thrown error aborts the remaining statements of
-- the enclosing block, but a try/catch block catches it (any JavaScript
-- error, the abort envelope included) and runs its handler.  Calling a
-- name with no binding is a ReferenceError.
mutual

def runStmt (bs : List Binding) (cb : Option Callback) : Stmt → List REvent × Option Txt
  | .callTool name args =>
    match lookupBinding bs name with
    | none => ([], some (name ++ " is not defined".toList))
    | some b =>
      match bridgedCall b.sname cb b.origName b.exec args with
      | (evs, .ret _) => (evs, none)
      | (evs, .thrown m) => (evs, some m)
  | .tryCatch body handler =>
    match runStmtL bs cb body with
    | (evs, none) => (evs, none)
    | (evs, some _) =>
      match runStmtL bs cb handler with
      | (evs2, r) => (evs ++ evs2, r)

def runStmtL (bs : List Binding) (cb : Option Callback) : StmtL → List REvent × Option Txt
  | .nil => ([], none)
  | .cons s t =>
    match runStmt bs cb s with
    | (evs, none) =>
      match runStmtL bs cb t with
      | (evs2, r) => (evs ++ evs2, r)
    | (evs, some m) => (evs, some m)

end

/-- A script block is straight-line when it contains no try/catch. -/
def straightLine : StmtL → Bool
  | .nil => true
  | .cons (.callTool _ _) t => straightLine t
  | .cons (.tryCatch _ _) _ => false

/-- The execution log accumulated during a run: the pushed trace entries
in order. -/
def traceOf (evs : List REvent) : List TraceEntry :=
  evs.filterMap (fun e =>
    match e with
    | .tracePushed t => some t
    | _ => none)

/-- Rendering of a value in the formatter: a string renders literally,
anything else by `JSON.stringify` (stringify of `undefined` renders via
the template as the text `undefined`). -/
def renderJS : JSVal → Txt
  | .val (jstr s) => s
  | .undef => "undefined".toList
  | .val v => encVal v

/-- JSON encoding of one element of the arguments array (`undefined`
inside an array stringifies as `null`). -/
def argElem : JSVal → Txt
  | .undef => "null".toList
  | .val v => encVal v

/-- Body of the JSON encoding of the arguments array. -/
def encArgsBody : List JSVal → Txt
  | [] => []
  | [a] => argElem a
  | a :: t => argElem a ++ ',' :: encArgsBody t

/-- JSON encoding of the arguments array, `JSON.stringify(entry.args)`. -/
def encArgs (xs : List JSVal) : Txt :=
  '[' :: (encArgsBody xs ++ [']'])

/-- One rendered line of the execution trace. -/
def traceLine (e : TraceEntry) : Txt :=
  "  ".toList ++ e.fn ++ '(' :: (encArgs e.args ++ ") → ".toList ++ renderJS e.result)

/-- The null / undefined test of the final-result guard
(`finalResult !== undefined && finalResult !== null`). -/
def isNullOrUndef : JSVal → Bool
  | .undef => true
  | .val jnull => true
  | _ => false

/-- The final-result line: present exactly when the value is neither
undefined nor null. -/
def finalLines (finalResult : JSVal) : List Txt :=
  if isNullOrUndef finalResult then []
  else ["Final result: ".toList ++ renderJS finalResult]

/-- Model of `CodeExecutionSandbox.formatExecutionResult`: the list of
lines pushed onto `lines` — the optional trace block (header, one line
per entry, blank line), then either the `Script error:` line (when the
error text is truthy) or the optional `Final result:` line. -/
def formatLines (log : List TraceEntry) (finalResult : JSVal) (error : Option Txt)
    (includeTrace : Bool) : List Txt :=
  (if includeTrace && !log.isEmpty then
    "Execution trace:".toList :: (log.map traceLine ++ [([] : Txt)])
  else []) ++
  (match error with
   | some e => if e = [] then finalLines finalResult else ["Script error: ".toList ++ e]
   | none => finalLines finalResult)

/-- The text returned by `formatExecutionResult`: the lines joined by
newlines. -/
def formatExecutionResult (log : List TraceEntry) (finalResult : JSVal)
    (error : Option Txt) (includeTrace : Bool) : Txt :=
  joinLines (formatLines log finalResult error includeTrace)

/-- Rendering of a decoded abort value (failure callback, abort path):
plain text for a string, JSON encoding otherwise. -/
def renderAbortVal : JVal → Txt
  | jstr s => s
  | v => encVal v

/-- Settlement of one invocation: the promise either fulfils or rejects
with a text. -/
inductive EngineResult where
  | resolved (text : Txt)
  | rejectedE (text : Txt)

/-- Model of one invocation of `CodeExecutionSandbox.execute` after a
successful setup: run the script against the bindings; on normal
completion the success callback resolves with the formatted log and
returned value; on a thrown error the failure callback first decodes the
abort envelope — an abort resolves with only the rendered abort value,
any other error rejects with the formatted log and `Script error:` text. -/
def runScript (bs : List Binding) (cb : Option Callback) (includeTrace : Bool)
    (sc : Script) : List REvent × EngineResult :=
  match runStmtL bs cb sc.body with
  | (evs, none) =>
    (evs, .resolved (formatExecutionResult (traceOf evs) sc.ret none includeTrace))
  | (evs, some msg) =>
    let m := errMsgOf msg
    match parseAbortError m with
    | some v => (evs, .resolved (renderAbortVal v))
    | none =>
      (evs, .rejectedE (formatExecutionResult (traceOf evs) (.val jnull) (some m) includeTrace))

/-- The abort signal carried by one event, if any. -/
def abortSel : REvent → Option JSVal
  | .cbCalled _ _ _ (.abortSig r) => some r
  | _ => none

/-- The first abort signal returned by the host inspection callback
during a run, if any. -/
def abortOf (evs : List REvent) : Option JSVal :=
  evs.findSome? abortSel

/-- Settlement signals that can reach the invocation's state machine: the
wall-clock timer, the success callback, the failure callback, or a thrown
setup error. -/
inductive SettleEvent where
  | timerFire : SettleEvent
  | successCb (v : JSVal) : SettleEvent
  | failureCb (msg : Txt) : SettleEvent
  | setupThrow (msg : Txt) : SettleEvent

/-- Whether the isolate's dispose operation faults when invoked. -/
inductive DisposeBehavior where
  | disposeOk : DisposeBehavior
  | disposeThrows (msg : Txt) : DisposeBehavior

/-- The engine's settlement state: the `finished` guard, the number of
times `isolate.dispose()` has been invoked, and the settling signal. -/
structure EngineState where
  finished : Bool
  disposeCalls : Nat
  settledBy : Option SettleEvent

/-- The initial engine state. -/
def initialEngineState : EngineState :=
  { finished := false, disposeCalls := 0, settledBy := none }

/-- Model of `cleanup` (`try { isolate.dispose(); } catch {}`): dispose is
invoked — counted — and a fault from dispose is swallowed by the empty
catch, leaving the state otherwise unchanged. -/
def runCleanup (d : DisposeBehavior) (s : EngineState) : EngineState :=
  match d with
  | .disposeOk => { s with disposeCalls := s.disposeCalls + 1 }
  | .disposeThrows _ => { s with disposeCalls := s.disposeCalls + 1 }

/-- One settlement signal hitting the state machine: the `finished` guard
makes every signal after the first a no-op; the first signal flips the
guard, records the outcome, and runs cleanup. -/
def stepSettle (d : DisposeBehavior) (s : EngineState) (e : SettleEvent) : EngineState :=
  if s.finished then s
  else runCleanup d { s with finished := true, settledBy := some e }

/-- The state after a sequence of settlement signals. -/
def runSettle (d : DisposeBehavior) (es : List SettleEvent) : EngineState :=
  es.foldl (stepSettle d) initialEngineState

/-- The setup state reached by `toolScripting` when binding extraction
succeeds: the bindings exist and the execution sandbox is constructed. -/
structure SetupState where
  bindings : List Binding
  sandboxCreated : Bool

/-- Model of the setup prefix of `toolScripting`: extract the bindings
(which throws on a tool without an execute function, propagating before
any sandbox is constructed), then construct the sandbox. -/
def toolScriptingSetup (tools : List (Txt × ToolDef)) : Except Txt SetupState :=
  match extractToolBindings tools with
  | .error e => .error e
  | .ok bs => .ok ⟨bs, true⟩

/-- The first tool in table order whose execute function is absent. -/
def firstMissing : List (Txt × ToolDef) → Option Txt
  | [] => none
  | (name, tool) :: rest =>
    match tool.execute with
    | none => some name
    | some _ => firstMissing rest

-- Concrete instances used to evaluate the model on particular runs.

/-- A tool execute function resolving to `undefined`. -/
def demoExecUndef : List JSVal → ExecOut := fun _ => .ok (.plainRet .undef)

/-- A tool execute function resolving to the string `"x"`. -/
def getDataExec : List JSVal → ExecOut := fun _ => .ok (.plainRet (.val (jstr "x".toList)))

/-- A tool execute function resolving to the number 1. -/
def oneExec : List JSVal → ExecOut := fun _ => .ok (.plainRet (.val (jnum 1)))

/-- A tool execute function resolving to the string `"a"`. -/
def t1Exec : List JSVal → ExecOut := fun _ => .ok (.plainRet (.val (jstr "a".toList)))

/-- A tool execute function resolving to the string `"b"`. -/
def t2Exec : List JSVal → ExecOut := fun _ => .ok (.plainRet (.val (jstr "b".toList)))

/-- A callback passing every result through unchanged. -/
def cbPass : Callback := fun _ v => .contSig v

/-- A callback replacing every result with the number 2. -/
def cbTwo : Callback := fun _ _ => .contSig (.val (jnum 2))

/-- A callback aborting every call with the string `"stop"`. -/
def cbStop : Callback := fun _ _ => .abortSig (.val (jstr "stop".toList))

/-- The abort payload of the auth scenario. -/
def authVal : JVal := jobj (.cons "authRequired".toList (jbool true) .nil)

/-- A callback aborting calls of `t1` with the auth payload and passing
everything else through. -/
def cbAuth : Callback := fun n v =>
  if n = "t1".toList then .abortSig (.val authVal) else .contSig v

/-- The binding of the kebab-named tool `get-data`, as extraction stores
it: keyed by the sanitized name, closing over the original name. -/
def bindGetData : Binding := ⟨"get_data".toList, "get-data".toList, getDataExec⟩

/-- A binding named `t` returning 1. -/
def bindT : Binding := ⟨"t".toList, "t".toList, oneExec⟩

/-- A binding named `t1`. -/
def bindT1 : Binding := ⟨"t1".toList, "t1".toList, t1Exec⟩

/-- A binding named `t2`. -/
def bindT2 : Binding := ⟨"t2".toList, "t2".toList, t2Exec⟩

/-- A script performing a single call of `t1`. -/
def scriptOneCall : Script :=
  ⟨.cons (.callTool "t1".toList []) .nil, .val jnull⟩

/-- A script wrapping a call of `t1` in try/catch whose handler calls
`t2`, then returning the string `"done"`. -/
def scriptCatch : Script :=
  ⟨.cons (.tryCatch (.cons (.callTool "t1".toList []) .nil)
      (.cons (.callTool "t2".toList []) .nil)) .nil,
    .val (jstr "done".toList)⟩

/-- The marker beginning a final-result line. -/
def finalMarker : Txt := "Final result: ".toList

/-- The number of lines beginning with the final-result marker. -/
def countFinalLines (ls : List Txt) : Nat :=
  (ls.filter (fun l => hasPre finalMarker l)).length

/-- Well-formedness of one event of a run against the bindings table and
callback: tool invocations and callback invocations carry an original
binding name, the callback's third argument is `undefined` and its signal
is the callback applied to the two passed arguments, and trace entries
are keyed by a binding's stored (sanitized) name. -/
def eventWF (bs : List Binding) (cb : Option Callback) : REvent → Prop
  | .execCalled n _ => ∃ b ∈ bs, n = b.origName
  | .cbCalled n v ta sg =>
    (∃ b ∈ bs, n = b.origName) ∧ ta = .undef ∧ ∃ f, cb = some f ∧ sg = f n v
  | .tracePushed t => ∃ b ∈ bs, t.fn = b.sname

/-- Well-formedness of one event of a single bridged call. -/
def evOfCall (sname orig : Txt) (cb : Option Callback) : REvent → Prop
  | .execCalled n _ => n = orig
  | .cbCalled n v ta sg => n = orig ∧ ta = .undef ∧ ∃ f, cb = some f ∧ sg = f n v
  | .tracePushed t => t.fn = sname

-- Helper lemmas about the capability bridge.

theorem wrappedExecute_cases (cb : Option Callback) (orig : Txt)
    (exec : List JSVal → ExecOut) (args : List JSVal) :
    (∃ m, exec (normalizeArgs args) = .threw m ∧
      wrappedExecute cb orig exec args =
        ([.execCalled orig (normalizeArgs args)], .thrown m)) ∨
    (∃ raw m, exec (normalizeArgs args) = .ok raw ∧ adaptStage raw = .thrown m ∧
      wrappedExecute cb orig exec args =
        ([.execCalled orig (normalizeArgs args)], .thrown m)) ∨
    (∃ raw v, exec (normalizeArgs args) = .ok raw ∧ adaptStage raw = .value v ∧
      cb = none ∧
      wrappedExecute cb orig exec args =
        ([.execCalled orig (normalizeArgs args)], .ret v)) ∨
    (∃ raw v f, exec (normalizeArgs args) = .ok raw ∧ adaptStage raw = .value v ∧
      cb = some f ∧
      ((∃ r, f orig v = .contSig r ∧
        wrappedExecute cb orig exec args =
          ([.execCalled orig (normalizeArgs args),
            .cbCalled orig v .undef (.contSig r)], .ret r)) ∨
       (∃ r, f orig v = .abortSig r ∧
        wrappedExecute cb orig exec args =
          ([.execCalled orig (normalizeArgs args),
            .cbCalled orig v .undef (.abortSig r)],
            .thrown (createAbortError r))))) := by
  rcases hx : exec (normalizeArgs args) with raw | m
  · rcases ha : adaptStage raw with m2 | v2
    · exact Or.inr (Or.inl ⟨raw, m2, rfl, ha, by simp [wrappedExecute, hx, ha]⟩)
    · cases hcb : cb with
      | none =>
        exact Or.inr (Or.inr (Or.inl ⟨raw, v2, rfl, ha, rfl,
          by simp [wrappedExecute, hx, ha]⟩))
      | some f =>
        rcases hs : f orig v2 with r | r
        · exact Or.inr (Or.inr (Or.inr ⟨raw, v2, f, rfl, ha, rfl,
            Or.inl ⟨r, hs, by simp [wrappedExecute, hx, ha, hs]⟩⟩))
        · exact Or.inr (Or.inr (Or.inr ⟨raw, v2, f, rfl, ha, rfl,
            Or.inr ⟨r, hs, by simp [wrappedExecute, hx, ha, hs]⟩⟩))
  · exact Or.inl ⟨m, rfl, by simp [wrappedExecute, hx]⟩

theorem wrappedExecute_first (cb : Option Callback) (orig : Txt)
    (exec : List JSVal → ExecOut) (args : List JSVal) :
    ∃ t, (wrappedExecute cb orig exec args).1 =
      .execCalled orig (normalizeArgs args) :: t := by
  rcases wrappedExecute_cases cb orig exec args with
    ⟨m, _, hw⟩ | ⟨raw, m, _, _, hw⟩ | ⟨raw, v, _, _, _, hw⟩ |
    ⟨raw, v, f, _, _, _, ⟨r, _, hw⟩ | ⟨r, _, hw⟩⟩ <;>
    exact ⟨_, by rw [hw]⟩

theorem abortOf_nil : abortOf [] = none := rfl

theorem abortOf_append_none (l1 l2 : List REvent) (h : abortOf l1 = none) :
    abortOf (l1 ++ l2) = abortOf l2 := by
  induction l1 with
  | nil => simp [abortOf]
  | cons e t ih =>
    rcases hse : abortSel e with _ | r
    · simp only [abortOf, List.cons_append, List.findSome?_cons, hse] at h ⊢
      exact ih h
    · simp only [abortOf, List.findSome?_cons, hse] at h
      cases h

theorem wrappedExecute_no_abort_of_ret (cb : Option Callback) (orig : Txt)
    (exec : List JSVal → ExecOut) (args : List JSVal) (evs : List REvent) (v : JSVal)
    (h : wrappedExecute cb orig exec args = (evs, .ret v)) :
    abortOf evs = none := by
  rcases wrappedExecute_cases cb orig exec args with
    ⟨m, _, hw⟩ | ⟨raw, m, _, _, hw⟩ | ⟨raw, v2, _, _, _, hw⟩ |
    ⟨raw, v2, f, _, _, _, ⟨r, hs, hw⟩ | ⟨r, hs, hw⟩⟩ <;>
    rw [hw] at h <;> injection h with h1 h2 <;> subst h1
  · exact absurd h2 (fun hc => CallOut.noConfusion hc)
  · exact absurd h2 (fun hc => CallOut.noConfusion hc)
  · rfl
  · rfl
  · exact absurd h2 (fun hc => CallOut.noConfusion hc)

theorem bridgedCall_ret_no_abort (sname : Txt) (cb : Option Callback) (orig : Txt)
    (exec : List JSVal → ExecOut) (args : List JSVal) (evs : List REvent) (v : JSVal)
    (h : bridgedCall sname cb orig exec args = (evs, .ret v)) :
    abortOf evs = none := by
  unfold bridgedCall at h
  rcases hw : wrappedExecute cb orig exec args with ⟨evs0, out⟩
  rw [hw] at h
  cases out with
  | ret v0 =>
    simp only at h
    injection h with h1 h2
    subst h1
    have h0 := wrappedExecute_no_abort_of_ret cb orig exec args evs0 v0 hw
    rw [abortOf_append_none _ _ h0]
    rfl
  | thrown m =>
    simp only at h
    injection h with h1 h2
    exact absurd h2 (fun hc => CallOut.noConfusion hc)

theorem bridgedCall_thrown_cases (sname : Txt) (cb : Option Callback) (orig : Txt)
    (exec : List JSVal → ExecOut) (args : List JSVal) (evs : List REvent) (m : Txt)
    (h : bridgedCall sname cb orig exec args = (evs, .thrown m)) :
    (abortOf evs = none) ∨
    (∃ v f r, cb = some f ∧ f orig v = .abortSig r ∧ m = createAbortError r ∧
      evs = [.execCalled orig (normalizeArgs args),
             .cbCalled orig v .undef (.abortSig r),
             .tracePushed ⟨sname, args, .val (jstr ("Error: ".toList ++ errMsgOf m))⟩] ∧
      abortOf evs = some r) := by
  unfold bridgedCall at h
  rcases wrappedExecute_cases cb orig exec args with
    ⟨m2, _, hw⟩ | ⟨raw, m2, _, _, hw⟩ | ⟨raw, v2, _, _, _, hw⟩ |
    ⟨raw, v2, f, _, _, hcb, ⟨r, hs, hw⟩ | ⟨r, hs, hw⟩⟩ <;> rw [hw] at h <;>
    simp only at h <;> injection h with h1 h2
  · subst h1
    cases h2
    left
    rfl
  · subst h1
    cases h2
    left
    rfl
  · exact absurd h2 (fun hc => CallOut.noConfusion hc)
  · exact absurd h2 (fun hc => CallOut.noConfusion hc)
  · subst h1
    cases h2
    right
    exact ⟨v2, f, r, hcb, hs, rfl, rfl, rfl⟩

theorem bridgedCall_events (sname : Txt) (cb : Option Callback) (orig : Txt)
    (exec : List JSVal → ExecOut) (args : List JSVal) :
    ∀ e ∈ (bridgedCall sname cb orig exec args).1, evOfCall sname orig cb e := by
  intro e he
  unfold bridgedCall at he
  rcases wrappedExecute_cases cb orig exec args with
    ⟨m, _, hw⟩ | ⟨raw, m, _, _, hw⟩ | ⟨raw, v, _, _, hcb, hw⟩ |
    ⟨raw, v, f, _, _, hcb, ⟨r, hs, hw⟩ | ⟨r, hs, hw⟩⟩ <;>
    rw [hw] at he <;>
    simp only [List.cons_append, List.nil_append] at he <;>
    fin_cases he <;>
    first
      | exact rfl
      | exact ⟨rfl, rfl, f, hcb, hs.symm⟩

theorem lookupBinding_mem (bs : List Binding) (key : Txt) (b : Binding)
    (h : lookupBinding bs key = some b) : b ∈ bs := by
  induction bs with
  | nil => cases h
  | cons b0 rest ih =>
    simp only [lookupBinding] at h
    rcases hr : lookupBinding rest key with _ | b2
    · rw [hr] at h
      by_cases hbk : b0.sname = key
      · rw [if_pos hbk] at h
        injection h with h2
        subst h2
        exact List.mem_cons_self _ _
      · rw [if_neg hbk] at h
        cases h
    · rw [hr] at h
      injection h with h2
      subst h2
      exact List.mem_cons_of_mem _ (ih hr)

theorem extractToolBindings_ok (tools : List (Txt × ToolDef)) (bs : List Binding)
    (hx : extractToolBindings tools = .ok bs) :
    ∀ b ∈ bs, ∃ nt ∈ tools, nt.2.execute.isSome ∧ b.origName = nt.1 ∧
      b.sname = sanitizeToolName nt.1 := by
  induction tools generalizing bs with
  | nil =>
    cases hx
    intro b hb
    cases hb
  | cons nt rest ih =>
    rcases nt with ⟨name, tool⟩
    simp only [extractToolBindings] at hx
    rcases hex : tool.execute with _ | f
    · rw [hex] at hx
      cases hx
    · rw [hex] at hx
      rcases hr : extractToolBindings rest with e | bs2
      · rw [hr] at hx
        cases hx
      · rw [hr] at hx
        cases hx
        intro b hb
        rcases List.mem_cons.mp hb with rfl | hb2
        · exact ⟨(name, tool), List.mem_cons_self _ _, by simp [hex], rfl, rfl⟩
        · obtain ⟨nt2, hnt2, h1, h2, h3⟩ := ih bs2 hr b hb2
          exact ⟨nt2, List.mem_cons_of_mem _ hnt2, h1, h2, h3⟩

theorem extractToolBindings_sname (tools : List (Txt × ToolDef)) (bs : List Binding)
    (hx : extractToolBindings tools = .ok bs) :
    ∀ b ∈ bs, b.sname = sanitizeToolName b.origName := by
  intro b hb
  obtain ⟨nt, _, _, h2, h3⟩ := extractToolBindings_ok tools bs hx b hb
  rw [h3, h2]

theorem extractToolBindings_missing (tools : List (Txt × ToolDef)) (n : Txt)
    (h : firstMissing tools = some n) :
    extractToolBindings tools = .error (missingMsg n) := by
  induction tools with
  | nil => cases h
  | cons nt rest ih =>
    rcases nt with ⟨name, tool⟩
    simp only [firstMissing] at h
    simp only [extractToolBindings]
    rcases hex : tool.execute with _ | f
    · rw [hex] at h
      cases h
      rfl
    · rw [hex] at h
      rw [ih h]

theorem runScript_fst (bs : List Binding) (cb : Option Callback) (flag : Bool)
    (sc : Script) : (runScript bs cb flag sc).1 = (runStmtL bs cb sc.body).1 := by
  unfold runScript
  rcases hr : runStmtL bs cb sc.body with ⟨evs, res⟩
  cases res with
  | none => rfl
  | some msg =>
    simp only
    rcases parseAbortError (errMsgOf msg) with _ | v <;> rfl

-- Every event of a run is well-formed with respect to the bindings table
-- and callback.
mutual

theorem runStmt_events (bs : List Binding) (cb : Option Callback) (st : Stmt) :
    ∀ e ∈ (runStmt bs cb st).1, eventWF bs cb e := by
  cases st with
  | callTool name args =>
    intro e he
    rcases hl : lookupBinding bs name with _ | b
    · simp only [runStmt, hl] at he
      cases he
    · simp only [runStmt, hl] at he
      have hbm := lookupBinding_mem bs name b hl
      rcases hc : bridgedCall b.sname cb b.origName b.exec args with ⟨evs, out⟩
      have hev := bridgedCall_events b.sname cb b.origName b.exec args
      rw [hc] at he hev
      have h2 : evOfCall b.sname b.origName cb e := by
        cases out with
        | ret v =>
          simp only at he
          exact hev e he
        | thrown m =>
          simp only at he
          exact hev e he
      cases e with
      | execCalled n a => exact ⟨b, hbm, h2⟩
      | cbCalled n v ta sg =>
        obtain ⟨hn, hta, hf⟩ := h2
        exact ⟨⟨b, hbm, hn⟩, hta, hf⟩
      | tracePushed t => exact ⟨b, hbm, h2⟩
  | tryCatch body handler =>
    intro e he
    simp only [runStmt] at he
    rcases hb : runStmtL bs cb body with ⟨evs1, r1⟩
    rw [hb] at he
    cases r1 with
    | none =>
      simp only at he
      have := runStmtL_events bs cb body
      rw [hb] at this
      exact this e he
    | some m =>
      rcases hh : runStmtL bs cb handler with ⟨evs2, r2⟩
      rw [hh] at he
      simp only [List.mem_append] at he
      rcases he with he | he
      · have := runStmtL_events bs cb body
        rw [hb] at this
        exact this e he
      · have := runStmtL_events bs cb handler
        rw [hh] at this
        exact this e he

theorem runStmtL_events (bs : List Binding) (cb : Option Callback) (l : StmtL) :
    ∀ e ∈ (runStmtL bs cb l).1, eventWF bs cb e := by
  cases l with
  | nil =>
    intro e he
    cases he
  | cons st t =>
    intro e he
    simp only [runStmtL] at he
    rcases hs : runStmt bs cb st with ⟨evs1, r1⟩
    rw [hs] at he
    cases r1 with
    | none =>
      rcases ht : runStmtL bs cb t with ⟨evs2, r2⟩
      rw [ht] at he
      simp only [List.mem_append] at he
      rcases he with he | he
      · have := runStmt_events bs cb st
        rw [hs] at this
        exact this e he
      · have := runStmtL_events bs cb t
        rw [ht] at this
        exact this e he
    | some m =>
      simp only at he
      have := runStmt_events bs cb st
      rw [hs] at this
      exact this e he

end

-- In a straight-line script, once the callback signals abort, the run
-- stops: the thrown message is the abort envelope and the only event
-- after the abort signal is the trace push of the failed call.
theorem runL_abort (bs : List Binding) (f : Callback) :
    ∀ (l : StmtL), straightLine l = true → ∀ r : JSVal,
    abortOf (runStmtL bs (some f) l).1 = some r →
    (runStmtL bs (some f) l).2 = some (createAbortError r) ∧
    ∃ pre n v tr, (runStmtL bs (some f) l).1 =
      pre ++ [.cbCalled n v .undef (.abortSig r), .tracePushed tr]
  | .nil, _, r, h => by exact Option.noConfusion h
  | .cons (.tryCatch b2 h2) t, hs, r, h => by simp [straightLine] at hs
  | .cons (.callTool name args) t, hs, r, h => by
    have hst : straightLine t = true := by simpa [straightLine] using hs
    rcases hl : lookupBinding bs name with _ | b
    · simp [runStmtL, runStmt, hl, abortOf] at h
    · rcases hc : bridgedCall b.sname (some f) b.origName b.exec args with ⟨evs1, out⟩
      cases out with
      | ret v =>
        have hna := bridgedCall_ret_no_abort _ _ _ _ _ _ _ hc
        rcases ht : runStmtL bs (some f) t with ⟨evs2, r2⟩
        simp only [runStmtL, runStmt, hl, hc, ht] at h ⊢
        rw [abortOf_append_none _ _ hna] at h
        have IH := runL_abort bs f t hst r (by rw [ht]; exact h)
        rw [ht] at IH
        obtain ⟨ho, pre, n, v2, tr, hevs⟩ := IH
        have ho2 : r2 = some (createAbortError r) := ho
        have hevs2 : evs2 =
            pre ++ [.cbCalled n v2 .undef (.abortSig r), .tracePushed tr] := hevs
        refine ⟨ho2, evs1 ++ pre, n, v2, tr, ?_⟩
        rw [hevs2, ← List.append_assoc]
      | thrown m =>
        simp only [runStmtL, runStmt, hl, hc] at h ⊢
        rcases bridgedCall_thrown_cases _ _ _ _ _ _ _ hc with
          hnone | ⟨v, f2, r2, hcb, hs2, hm, hevs, habort⟩
        · rw [hnone] at h
          cases h
        · rw [habort] at h
          injection h with h2
          subst h2
          refine ⟨by rw [hm], [.execCalled b.origName (normalizeArgs args)],
            b.origName, v,
            ⟨b.sname, args, .val (jstr ("Error: ".toList ++ errMsgOf m))⟩, ?_⟩
          rw [hevs]
          rfl

theorem stepSettle_finished (d : DisposeBehavior) (st : EngineState) (e : SettleEvent)
    (h : st.finished = true) : stepSettle d st e = st := by
  simp [stepSettle, h]

theorem foldl_settle_finished (d : DisposeBehavior) (es : List SettleEvent)
    (st : EngineState) (h : st.finished = true) :
    es.foldl (stepSettle d) st = st := by
  induction es with
  | nil => rfl
  | cons e t ih => rw [List.foldl_cons, stepSettle_finished d st e h, ih]

theorem stepSettle_initial (d : DisposeBehavior) (e : SettleEvent) :
    stepSettle d initialEngineState e =
      { finished := true, disposeCalls := 1, settledBy := some e } := by
  cases d <;> rfl

theorem runSettle_cons (d : DisposeBehavior) (e : SettleEvent) (es : List SettleEvent) :
    runSettle d (e :: es) =
      { finished := true, disposeCalls := 1, settledBy := some e } := by
  unfold runSettle
  rw [List.foldl_cons, stepSettle_initial]
  exact foldl_settle_finished d es _ rfl

/-- C2: for every invocation that receives at least one settlement signal
(success, failure, timeout or setup failure — the wall-clock timer
guarantees at least one), the isolate's dispose operation is invoked
exactly once, never zero times and never twice; the `finished` guard makes
the first signal the settling one and every later signal a no-op; and a
fault raised by dispose itself is swallowed, so the final state — outcome
included — is identical whether dispose faults or not. -/
theorem claim_C2_dispose_once (d d' : DisposeBehavior) (e : SettleEvent)
    (es : List SettleEvent) :
    (runSettle d (e :: es)).disposeCalls = 1 ∧
    (runSettle d (e :: es)).finished = true ∧
    (runSettle d (e :: es)).settledBy = some e ∧
    runSettle d (e :: es) = runSettle d' (e :: es) := by
  rw [runSettle_cons, runSettle_cons]
  exact ⟨rfl, rfl, rfl, rfl⟩

/-- C3 as stated is false on the code at v = null: the abort error
created for the JSON value null decodes to null — the source's own
designated not-an-abort result, the same value returned for a message
without the sentinel prefix — so the decoded value is not recognized as
an abort. -/
theorem claim_C3_counterexample :
    parseAbortError (createAbortError (JSVal.val jnull)) = none ∧
    parseAbortError "Some ordinary failure".toList = none :=
  ⟨rfl, rfl⟩

/-- C3 amended: for every JSON-serializable value other than null,
decoding the message of the abort error created for it yields an equal
value and is recognized as an abort; any message that does not start
with the sentinel prefix decodes to the not-an-abort result; and the
abort error created for null itself decodes to that same not-an-abort
result, since the decoded null is indistinguishable from it. -/
theorem claim_C3_roundtrip :
    (∀ v : JVal, v ≠ jnull →
      parseAbortError (createAbortError (JSVal.val v)) = some v) ∧
    (∀ m : Txt, hasPre ABORT_SENTINEL m = false → parseAbortError m = none) ∧
    parseAbortError (createAbortError (JSVal.val jnull)) = none :=
  ⟨abort_roundtrip, parseAbort_no_sentinel, rfl⟩

theorem claim_C3_roundtrip_witness :
    parseAbortError (createAbortError (JSVal.val
      (jobj (.cons "authRequired".toList (jbool true) .nil)))) =
      some (jobj (.cons "authRequired".toList (jbool true) .nil)) ∧
    parseAbortError "Some ordinary failure".toList = none :=
  ⟨claim_C3_roundtrip.1 _ (fun h => JVal.noConfusion h),
   claim_C3_roundtrip.2.1 _ (by decide)⟩

/-- C8: for every capability call made from the script, the underlying
execute function is invoked with the normalized arguments: a call with
zero arguments delivers exactly one empty-structure argument, and a call
with one or more arguments delivers them unchanged. -/
theorem claim_C8_empty_args :
    (∀ (cb : Option Callback) (n : Txt) (exec : List JSVal → ExecOut) (args : List JSVal),
      ∃ t, (wrappedExecute cb n exec args).1 =
        .execCalled n (normalizeArgs args) :: t) ∧
    normalizeArgs [] = [JSVal.val (jobj JObj.nil)] ∧
    (∀ (a : JSVal) (t : List JSVal), normalizeArgs (a :: t) = a :: t) :=
  ⟨wrappedExecute_first, rfl, fun _ _ => rfl⟩

/-- C9: a tool table containing a tool without an execute function makes
binding extraction throw an error naming the first such tool, and the
setup pipeline then fails before any sandbox state exists; conversely
every binding produced by a successful extraction corresponds to a tool
whose execute function is present, stored under the sanitized name with
the original name captured. -/
theorem claim_C9_missing_execute :
    (∀ (tools : List (Txt × ToolDef)) (n : Txt), firstMissing tools = some n →
      extractToolBindings tools = .error (missingMsg n) ∧
      toolScriptingSetup tools = .error (missingMsg n)) ∧
    (∀ (tools : List (Txt × ToolDef)) (bs : List Binding),
      extractToolBindings tools = .ok bs →
      ∀ b ∈ bs, ∃ nt ∈ tools, nt.2.execute.isSome ∧ b.origName = nt.1 ∧
        b.sname = sanitizeToolName nt.1) := by
  constructor
  · intro tools n h
    have hx := extractToolBindings_missing tools n h
    exact ⟨hx, by simp [toolScriptingSetup, hx]⟩
  · exact extractToolBindings_ok

theorem claim_C9_missing_execute_witness :
    (extractToolBindings [("get-data".toList, ⟨none⟩)] =
      .error (missingMsg "get-data".toList) ∧
     toolScriptingSetup [("get-data".toList, ⟨none⟩)] =
      .error (missingMsg "get-data".toList)) ∧
    ∃ nt ∈ [("get-data".toList, (⟨some demoExecUndef⟩ : ToolDef))],
      nt.2.execute.isSome ∧
      (Binding.mk "get_data".toList "get-data".toList demoExecUndef).origName = nt.1 ∧
      (Binding.mk "get_data".toList "get-data".toList demoExecUndef).sname =
        sanitizeToolName nt.1 := by
  constructor
  · exact claim_C9_missing_execute.1 [("get-data".toList, ⟨none⟩)] "get-data".toList rfl
  · exact claim_C9_missing_execute.2 [("get-data".toList, ⟨some demoExecUndef⟩)]
      [⟨"get_data".toList, "get-data".toList, demoExecUndef⟩] rfl
      ⟨"get_data".toList, "get-data".toList, demoExecUndef⟩ (List.mem_singleton.mpr rfl)

/-- C10: for a non-error recognized envelope without structured content —
no content yields `undefined`; more than one content entry yields the
whole content array unchanged; exactly one entry of type `'text'` with
non-empty text yields the JSON-parse of the text when it parses and the
raw text string otherwise. -/
theorem claim_C10_adaptation (r : MCPToolResult) (hErr : r.isError = false)
    (hSC : r.structuredContent = none) :
    ((r.content = none ∨ r.content = some JArr.nil) →
      adaptMCPToolResult r = .value .undef) ∧
    (∀ e e2 rest2, r.content = some (JArr.cons e (JArr.cons e2 rest2)) →
      adaptMCPToolResult r = .value (.val (jarr (JArr.cons e (JArr.cons e2 rest2))))) ∧
    (∀ e s2, r.content = some (JArr.cons e JArr.nil) →
      jget e "type".toList = some (jstr "text".toList) →
      jget e "text".toList = some (jstr s2) → s2 ≠ [] →
      (∀ v, parseJson s2 = some v → adaptMCPToolResult r = .value (.val v)) ∧
      (parseJson s2 = none → adaptMCPToolResult r = .value (.val (jstr s2)))) := by
  have hbase : adaptMCPToolResult r = adaptContent r.content := by
    simp [adaptMCPToolResult, hErr, hSC]
  refine ⟨?_, ?_, ?_⟩
  · intro hcon
    rcases hcon with hcon | hcon <;> rw [hbase, hcon] <;> rfl
  · intro e e2 rest2 hcon
    rw [hbase, hcon]
    rfl
  · intro e s2 hcon hty htx hne
    rw [hbase, hcon]
    have h1 : adaptContent (some (JArr.cons e JArr.nil)) = adaptSingle e := rfl
    have htr : jsTruthy (jstr s2) = true := by simp [jsTruthy, hne]
    rw [h1]
    have et1 : ("type".toList : Txt) = ['t', 'y', 'p', 'e'] := rfl
    have et2 : ("text".toList : Txt) = ['t', 'e', 'x', 't'] := rfl
    rw [et1, et2] at hty
    rw [et2] at htx
    constructor
    · intro v hv
      unfold adaptSingle
      rw [et1, et2]
      simp [hty, htx, htr, jsToString, hv]
    · intro hv
      unfold adaptSingle
      rw [et1, et2]
      simp [hty, htx, htr, jsToString, hv]

theorem claim_C10_adaptation_witness :
    adaptMCPToolResult
      ⟨false,
        some (JArr.cons
          (jobj (.cons "type".toList (jstr "text".toList)
            (.cons "text".toList (jstr "[1,2]".toList) .nil))) JArr.nil),
        none⟩ =
      .value (.val (jarr (JArr.cons (jnum 1) (JArr.cons (jnum 2) JArr.nil)))) :=
  ((claim_C10_adaptation _ rfl rfl).2.2
    (jobj (.cons "type".toList (jstr "text".toList)
      (.cons "text".toList (jstr "[1,2]".toList) .nil)))
    "[1,2]".toList rfl rfl rfl (by decide)).1
    (jarr (JArr.cons (jnum 1) (JArr.cons (jnum 2) JArr.nil))) (by rfl)

/-- C4 as stated is false on the code: a script that completes normally
with the value null produces a returned text with no `Final result:` line
at all — the guard `finalResult !== undefined && finalResult !== null`
skips the line. -/
theorem claim_C4_counterexample :
    (runScript [] none true ⟨.nil, .val jnull⟩).2 = .resolved [] ∧
    countFinalLines (formatLines [] (.val jnull) none true) = 0 :=
  ⟨rfl, rfl⟩

theorem hasPre_final_traceLine (e : TraceEntry) :
    hasPre finalMarker (traceLine e) = false := by
  have h1 : traceLine e = ' ' :: ' ' ::
      (e.fn ++ '(' :: (encArgs e.args ++ ") → ".toList ++ renderJS e.result)) := rfl
  have h2 : finalMarker = 'F' :: "inal result: ".toList := rfl
  rw [h1, h2]
  simp [hasPre]

theorem countFinal_trace_zero (log : List TraceEntry) (c : Bool) :
    countFinalLines
      (if c then "Execution trace:".toList :: (log.map traceLine ++ [([] : Txt)])
       else []) = 0 := by
  cases c with
  | false => rfl
  | true =>
    simp only [if_true]
    unfold countFinalLines
    have h1 : List.filter (fun l => hasPre finalMarker l) (log.map traceLine) = [] := by
      rw [List.filter_eq_nil_iff]
      intro a ha
      obtain ⟨e, _, rfl⟩ := List.mem_map.mp ha
      simp [hasPre_final_traceLine e]
    have hhd : hasPre finalMarker
        ['E', 'x', 'e', 'c', 'u', 't', 'i', 'o', 'n', ' ', 't', 'r', 'a', 'c', 'e', ':'] =
        false := by decide
    have hbl : hasPre finalMarker ([] : Txt) = false := by decide
    simp [List.filter_cons, List.filter_append, hhd, hbl, h1]

/-- C4 amended: for every script that completes normally, the returned
text is built from a line list that contains exactly one line beginning
`Final result: ` — namely the marker followed by the value rendered
literally for a string and JSON-encoded otherwise — provided the returned
value is neither null nor undefined; for null or undefined no final-result
line is emitted at all.  The success callback resolves with exactly this
formatted text. -/
theorem claim_C4_amended :
    (∀ (log : List TraceEntry) (v : JSVal) (flag : Bool), isNullOrUndef v = false →
      countFinalLines (formatLines log v none flag) = 1 ∧
      (finalMarker ++ renderJS v) ∈ formatLines log v none flag) ∧
    (∀ (log : List TraceEntry) (v : JSVal) (flag : Bool), isNullOrUndef v = true →
      countFinalLines (formatLines log v none flag) = 0) ∧
    (∀ (bs : List Binding) (cb : Option Callback) (flag : Bool) (sc : Script)
      (evs : List REvent), runStmtL bs cb sc.body = (evs, none) →
      runScript bs cb flag sc =
        (evs, .resolved (formatExecutionResult (traceOf evs) sc.ret none flag))) := by
  refine ⟨?_, ?_, ?_⟩
  · intro log v flag h
    have hfin : finalLines v = [finalMarker ++ renderJS v] := by
      simp [finalLines, h]
      rfl
    unfold formatLines
    simp only
    constructor
    · unfold countFinalLines
      rw [List.filter_append]
      have hz := countFinal_trace_zero log (flag && !log.isEmpty)
      unfold countFinalLines at hz
      rw [List.length_append, hz, hfin]
      simp [hasPre_append]
    · rw [hfin]
      simp
  · intro log v flag h
    have hfin : finalLines v = [] := by simp [finalLines, h]
    unfold formatLines
    simp only
    unfold countFinalLines
    rw [List.filter_append]
    have hz := countFinal_trace_zero log (flag && !log.isEmpty)
    unfold countFinalLines at hz
    rw [List.length_append, hz, hfin]
    rfl
  · intro bs cb flag sc evs h
    unfold runScript
    rw [h]

theorem traceOf_mem (evs : List REvent) (t : TraceEntry) (h : t ∈ traceOf evs) :
    REvent.tracePushed t ∈ evs := by
  simp only [traceOf, List.mem_filterMap] at h
  obtain ⟨e, he, hm⟩ := h
  cases e with
  | execCalled n a => simp at hm
  | cbCalled n v ta sg => simp at hm
  | tracePushed t2 =>
    simp only [Option.some.injEq] at hm
    subst hm
    exact he

/-- C5 as stated is false on the code: the execution-trace entry for a
kebab-named capability records the sanitized binding key, not the
original name.  In this run of the tool registered as `get-data`, the
callback receives `get-data` but the trace entry's name field is
`get_data`. -/
theorem claim_C5_counterexample :
    (runScript [bindGetData] (some cbPass) false
      ⟨.cons (.callTool "get_data".toList []) .nil, .val jnull⟩).1 =
      [.execCalled "get-data".toList [.val (jobj .nil)],
       .cbCalled "get-data".toList (.val (jstr "x".toList)) .undef
         (.contSig (.val (jstr "x".toList))),
       .tracePushed ⟨"get_data".toList, [], .val (jstr "x".toList)⟩] ∧
    extractToolBindings [("get-data".toList, ⟨some getDataExec⟩)] = .ok [bindGetData] ∧
    ("get_data".toList : Txt) ≠ "get-data".toList :=
  ⟨rfl, rfl, by decide⟩

/-- C5 amended: the sanitized name is used as the callable's name inside
the sandbox and as the key of the trace entries, while the host
inspection callback receives the original, unsanitized name: in every run
over bindings produced by extraction, each trace entry's name field is
the sanitized form of some binding's original name, and each callback
invocation receives a binding's original name. -/
theorem claim_C5_amended (tools : List (Txt × ToolDef)) (bs : List Binding)
    (hx : extractToolBindings tools = .ok bs) (cb : Callback) (flag : Bool)
    (sc : Script) :
    (∀ t ∈ traceOf (runScript bs (some cb) flag sc).1,
      ∃ b ∈ bs, t.fn = sanitizeToolName b.origName) ∧
    (∀ n v ta sg, REvent.cbCalled n v ta sg ∈ (runScript bs (some cb) flag sc).1 →
      ∃ b ∈ bs, n = b.origName) := by
  constructor
  · intro t ht
    rw [runScript_fst] at ht
    have hm := traceOf_mem _ _ ht
    have hwf := runStmtL_events bs (some cb) sc.body _ hm
    obtain ⟨b, hb, hfn⟩ := hwf
    exact ⟨b, hb, by rw [hfn, extractToolBindings_sname tools bs hx b hb]⟩
  · intro n v ta sg hm
    rw [runScript_fst] at hm
    have hwf := runStmtL_events bs (some cb) sc.body _ hm
    exact hwf.1

theorem claim_C5_amended_witness :
    (∀ t ∈ traceOf (runScript [bindGetData] (some cbPass) false
        ⟨.cons (.callTool "get_data".toList []) .nil, .val jnull⟩).1,
      ∃ b ∈ [bindGetData], t.fn = sanitizeToolName b.origName) ∧
    (∀ n v ta sg, REvent.cbCalled n v ta sg ∈
        (runScript [bindGetData] (some cbPass) false
          ⟨.cons (.callTool "get_data".toList []) .nil, .val jnull⟩).1 →
      ∃ b ∈ [bindGetData], n = b.origName) :=
  claim_C5_amended [("get-data".toList, ⟨some getDataExec⟩)] [bindGetData] rfl
    cbPass false ⟨.cons (.callTool "get_data".toList []) .nil, .val jnull⟩

/-- C6 as stated is false on the code: the trace entry is pushed after
the callback returns and records the callback's (possibly substituted)
result, not the adapted value.  Here the adapted value is 1 but the
callback substitutes 2, and the trace entry records 2. -/
theorem claim_C6_counterexample :
    (runScript [bindT] (some cbTwo) false
      ⟨.cons (.callTool "t".toList []) .nil, .val jnull⟩).1 =
      [.execCalled "t".toList [.val (jobj .nil)],
       .cbCalled "t".toList (.val (jnum 1)) .undef (.contSig (.val (jnum 2))),
       .tracePushed ⟨"t".toList, [], .val (jnum 2)⟩] ∧
    (JSVal.val (jnum 2) : JSVal) ≠ .val (jnum 1) := by
  refine ⟨rfl, fun h => ?_⟩
  injection h with h2
  injection h2 with h3
  exact absurd h3 (by decide)

/-- C6 amended: for every successful capability call with a callback
configured, the trace entry is appended after the callback returns, and
its outcome field records the value returned by the callback — which may
differ from the adapted value: the bridged call's event sequence is
exactly tool invocation, then callback invocation on the adapted value,
then the trace push recording the callback's result. -/
theorem claim_C6_amended (sname orig : Txt) (f : Callback)
    (exec : List JSVal → ExecOut) (args : List JSVal) (raw : ToolRet) (v r : JSVal)
    (hexec : exec (normalizeArgs args) = .ok raw)
    (hadapt : adaptStage raw = .value v)
    (hsig : f orig v = .contSig r) :
    bridgedCall sname (some f) orig exec args =
      ([.execCalled orig (normalizeArgs args),
        .cbCalled orig v .undef (.contSig r),
        .tracePushed ⟨sname, args, r⟩], .ret r) := by
  unfold bridgedCall wrappedExecute
  simp [hexec, hadapt, hsig]

theorem claim_C6_amended_witness :
    bridgedCall "t".toList (some cbTwo) "t".toList oneExec [] =
      ([.execCalled "t".toList [.val (jobj .nil)],
        .cbCalled "t".toList (.val (jnum 1)) .undef (.contSig (.val (jnum 2))),
        .tracePushed ⟨"t".toList, [], .val (jnum 2)⟩], .ret (.val (jnum 2))) :=
  claim_C6_amended "t".toList "t".toList cbTwo oneExec []
    (.plainRet (.val (jnum 1))) (.val (jnum 1)) (.val (jnum 2)) rfl rfl rfl

/-- C7 as stated is false on the code: the callback call site passes two
arguments, so a third parameter reads `undefined`, never the normalized
arguments.  In this run the capability is called with the argument 7, yet
the callback's third-parameter slot holds `undefined`. -/
theorem claim_C7_counterexample :
    (runScript [bindT] (some cbPass) false
      ⟨.cons (.callTool "t".toList [.val (jnum 7)]) .nil, .val jnull⟩).1 =
      [.execCalled "t".toList [.val (jnum 7)],
       .cbCalled "t".toList (.val (jnum 1)) .undef (.contSig (.val (jnum 1))),
       .tracePushed ⟨"t".toList, [.val (jnum 7)], .val (jnum 1)⟩] ∧
    JSVal.undef ≠ JSVal.val (jarr (.cons (jnum 7) .nil)) ∧
    JSVal.undef ≠ JSVal.val (jnum 7) :=
  ⟨rfl, fun h => JSVal.noConfusion h, fun h => JSVal.noConfusion h⟩

/-- C7 amended: the host inspection callback is invoked with exactly two
arguments — the capability name and the adapted value — whose application
determines its signal; a third parameter reads `undefined` on every
invocation. -/
theorem claim_C7_amended (bs : List Binding) (cb : Callback) (flag : Bool)
    (sc : Script) :
    ∀ n v ta sg, REvent.cbCalled n v ta sg ∈ (runScript bs (some cb) flag sc).1 →
      ta = .undef ∧ sg = cb n v := by
  intro n v ta sg hm
  rw [runScript_fst] at hm
  have h := runStmtL_events bs (some cb) sc.body _ hm
  obtain ⟨_, hta, f, hf, hsg⟩ := h
  injection hf with hf2
  subst hf2
  exact ⟨hta, hsg⟩

theorem claim_C7_amended_witness :
    JSVal.undef = JSVal.undef ∧
    Signal.contSig (JSVal.val (jnum 1)) = cbPass "t".toList (.val (jnum 1)) :=
  claim_C7_amended [bindT] cbPass false
    ⟨.cons (.callTool "t".toList [.val (jnum 7)]) .nil, .val jnull⟩
    "t".toList (.val (jnum 1)) .undef (.contSig (.val (jnum 1)))
    (by
      rw [show (runScript [bindT] (some cbPass) false
          ⟨.cons (.callTool "t".toList [.val (jnum 7)]) .nil, .val jnull⟩).1 =
        [.execCalled "t".toList [.val (jnum 7)],
         .cbCalled "t".toList (.val (jnum 1)) .undef (.contSig (.val (jnum 1))),
         .tracePushed ⟨"t".toList, [.val (jnum 7)], .val (jnum 1)⟩] from rfl]
      exact List.mem_cons_of_mem _ (List.mem_cons_self _ _))

theorem createAbortError_ne_nil (r : JSVal) : createAbortError r ≠ [] := by
  unfold createAbortError
  rw [show ABORT_SENTINEL = '_' :: "_CIRCUIT_BREAKER_ABORT__".toList from rfl]
  simp

theorem errMsgOf_createAbort (r : JSVal) :
    errMsgOf (createAbortError r) = createAbortError r := by
  simp [errMsgOf, createAbortError_ne_nil r]

/-- C1 as stated is false on the code: the abort envelope is an ordinary
thrown error inside the sandbox, so a script can catch it and keep
calling capabilities.  In this run the callback aborts the `t1` call with
the auth payload, yet the script's catch handler invokes `t2` afterwards,
the invocation completes normally, and the returned text is the final
result of the script — not the rendered abort value. -/
theorem claim_C1_counterexample :
    runScript [bindT1, bindT2] (some cbAuth) false scriptCatch =
      ([.execCalled "t1".toList [.val (jobj .nil)],
        .cbCalled "t1".toList (.val (jstr "a".toList)) .undef (.abortSig (.val authVal)),
        .tracePushed ⟨"t1".toList, [],
          .val (jstr ("Error: ".toList ++ createAbortError (.val authVal)))⟩,
        .execCalled "t2".toList [.val (jobj .nil)],
        .cbCalled "t2".toList (.val (jstr "b".toList)) .undef
          (.contSig (.val (jstr "b".toList))),
        .tracePushed ⟨"t2".toList, [], .val (jstr "b".toList)⟩],
       .resolved ("Final result: done".toList)) ∧
    (∃ pre post, (runScript [bindT1, bindT2] (some cbAuth) false scriptCatch).1 =
      pre ++ .cbCalled "t1".toList (.val (jstr "a".toList)) .undef
        (.abortSig (.val authVal)) :: post ∧
      .execCalled "t2".toList [.val (jobj .nil)] ∈ post) ∧
    ("Final result: done".toList : Txt) ≠ renderAbortVal authVal := by
  refine ⟨rfl, ⟨[.execCalled "t1".toList [.val (jobj .nil)]],
    [.tracePushed ⟨"t1".toList, [],
       .val (jstr ("Error: ".toList ++ createAbortError (.val authVal)))⟩,
     .execCalled "t2".toList [.val (jobj .nil)],
     .cbCalled "t2".toList (.val (jstr "b".toList)) .undef
       (.contSig (.val (jstr "b".toList))),
     .tracePushed ⟨"t2".toList, [], .val (jstr "b".toList)⟩], rfl, by simp⟩,
    by decide⟩

/-- C1 amended: for every invocation whose script is straight-line (does
not itself catch the thrown abort error) in which the host inspection
callback returns an abort signal carrying a JSON value other than null
(a null payload decodes to the not-an-abort marker and the invocation
rejects as a script error; an undefined payload breaks the envelope the
same way), no capability is invoked after that call (the only later
event is the trace push of the aborted call), the invocation fulfils
with exactly the abort value rendered as plain text for a string and as
its JSON encoding otherwise, and the returned text is independent of the
trace-inclusion flag (no trace lines are included). -/
theorem claim_C1_abort_idempotence (bs : List Binding) (f : Callback) (sc : Script)
    (flag : Bool) (j : JVal) (hj : j ≠ jnull)
    (hstraight : straightLine sc.body = true)
    (habort : abortOf (runStmtL bs (some f) sc.body).1 = some (.val j)) :
    (runScript bs (some f) flag sc).2 = .resolved (renderAbortVal j) ∧
    (∃ pre n v tr, (runScript bs (some f) flag sc).1 =
      pre ++ [.cbCalled n v .undef (.abortSig (.val j)), .tracePushed tr]) ∧
    (runScript bs (some f) true sc).2 = (runScript bs (some f) false sc).2 := by
  obtain ⟨ho, pre, n, v, tr, hevs⟩ := runL_abort bs f sc.body hstraight (.val j) habort
  have houtcome : ∀ fl, (runScript bs (some f) fl sc).2 = .resolved (renderAbortVal j) := by
    intro fl
    unfold runScript
    rcases hr : runStmtL bs (some f) sc.body with ⟨evs, res⟩
    rw [hr] at ho
    have ho2 : res = some (createAbortError (.val j)) := ho
    subst ho2
    simp [errMsgOf_createAbort, abort_roundtrip j hj]
  refine ⟨houtcome flag, ?_, by rw [houtcome true, houtcome false]⟩
  rw [runScript_fst]
  exact ⟨pre, n, v, tr, hevs⟩

theorem claim_C1_abort_idempotence_witness :
    (runScript [bindT1] (some cbStop) false scriptOneCall).2 =
      .resolved (renderAbortVal (jstr "stop".toList)) ∧
    (∃ pre n v tr, (runScript [bindT1] (some cbStop) false scriptOneCall).1 =
      pre ++ [.cbCalled n v .undef (.abortSig (.val (jstr "stop".toList))),
        .tracePushed tr]) ∧
    (runScript [bindT1] (some cbStop) true scriptOneCall).2 =
      (runScript [bindT1] (some cbStop) false scriptOneCall).2 :=
  claim_C1_abort_idempotence [bindT1] cbStop scriptOneCall false
    (jstr "stop".toList) (fun h => JVal.noConfusion h) rfl rfl

theorem claim_C4_amended_witness :
    (countFinalLines (formatLines [] (.val (jstr "done".toList)) none false) = 1 ∧
      (finalMarker ++ renderJS (.val (jstr "done".toList))) ∈
        formatLines [] (.val (jstr "done".toList)) none false) ∧
    countFinalLines (formatLines [] (.val jnull) none true) = 0 ∧
    runScript [] none false ⟨.nil, .val (jstr "done".toList)⟩ =
      ([], .resolved (formatExecutionResult (traceOf []) (.val (jstr "done".toList))
        none false)) :=
  ⟨claim_C4_amended.1 [] (.val (jstr "done".toList)) false rfl,
   claim_C4_amended.2.1 [] (.val jnull) true rfl,
   claim_C4_amended.2.2 [] none false ⟨.nil, .val (jstr "done".toList)⟩ [] rfl⟩

end SandboxModel
